import Mathlib

/-!
Verification of the mean-reversion ladder strategy engine
(src/strategy_engine.py with src/config.py and src/models.py).

Prices and share sizes are embedded as rationals; Python float values in the
source are finite decimals, which the rational embedding represents exactly.
Exchange interactions (order placement, balance queries, cancellations) are
embedded as explicit oracle arguments, so every engine routine becomes a pure
function of its inputs and the oracle answers.
-/

namespace Produccion

/-- Side of a binary-outcome token (models.OrderSide). -/
inductive OrderSide
  | yes
  | no
deriving DecidableEq, Repr

/-- Buy or sell (models.OrderType). -/
inductive OrderType
  | buy
  | sell
deriving DecidableEq, Repr

/-- Per-event strategy state (models.StrategyState). -/
inductive StrategyState
  | accumulating
  | exiting
  | completed
deriving DecidableEq, Repr

/-- An order the engine placed and tracks (models.TrackedOrder). -/
structure TrackedOrder where
  order_id : String
  token_id : String
  side : OrderSide
  order_type : OrderType
  price : ℚ
  size : ℚ
  event_slug : String
  entry_price : Option ℚ := none
  processed_size : ℚ := 0
deriving DecidableEq, Repr

/-- Exit-price table from config.EXIT_PRICES. Keys are the quantised entry
prices; note that 0.40 is a ladder level but is absent from this table. -/
def EXIT_PRICES : List (ℚ × ℚ) :=
  [ (48/100, 49/100), (47/100, 48/100), (46/100, 48/100), (45/100, 47/100),
    (44/100, 47/100), (43/100, 47/100), (42/100, 47/100), (41/100, 47/100),
    (39/100, 45/100), (38/100, 45/100), (37/100, 45/100) ]

/-- Stop-loss threshold from config.STOP_LOSS_PRICE. -/
def STOP_LOSS_PRICE : ℚ := 18/100

/-- Entry levels protected by a stop-loss, config.STOP_LOSS_ENTRIES. -/
def STOP_LOSS_ENTRIES : List ℚ := [48/100]

/-- Exchange minimum notional value per order, config.MIN_NOTIONAL_VALUE_USDC. -/
def MIN_NOTIONAL_VALUE_USDC : ℚ := 1

/-- Modelled from the spec: the constant MIN_SHARES is imported by
strategy_engine.py from the config module, but its definition is absent from
src/config.py. The spec calls it the defensive minimum share count per sell,
and the engine comments and log text fix it at 6 shares (lines 799-801:
POLYMARKET MINIMUM ORDER SIZE: 6 shares; line 423: Validates minimum 6 shares
before retry). -/
def MIN_SHARES : ℚ := 6

/-- Round a rational to the nearest integer, ties to even: the semantics of
the Python builtin round on an exactly-representable value. -/
def roundHalfEven (q : ℚ) : ℤ :=
  if q - ⌊q⌋ < 1/2 then ⌊q⌋
  else if 1/2 < q - ⌊q⌋ then ⌊q⌋ + 1
  else if ⌊q⌋ % 2 = 0 then ⌊q⌋ else ⌊q⌋ + 1

/-- Python round(q, d) on an exactly-representable value. -/
def pyRound (d : ℕ) (q : ℚ) : ℚ := ((roundHalfEven (q * 10 ^ d) : ℤ) : ℚ) / 10 ^ d

/-- Association lookup over the exit table, mirroring EXIT_PRICES.get. -/
def lookupExit (k : ℚ) : List (ℚ × ℚ) → Option ℚ
  | [] => none
  | (a, b) :: rest => if k = a then some b else lookupExit k rest

/-- StrategyEngine._get_exit_price (lines 56-78): quantise the entry to two
decimals, look it up in EXIT_PRICES, and fall back to the 0.49 default on a
miss (a miss also logs a warning, which the embedding does not track). -/
def getExitPrice (entry_price : ℚ) : ℚ :=
  match lookupExit (pyRound 2 entry_price) EXIT_PRICES with
  | some p => p
  | none => 49/100

/-- StrategyEngine._needs_stop_loss (lines 80-83). -/
def needsStopLoss (entry_price : ℚ) : Bool :=
  STOP_LOSS_ENTRIES.any (fun p => pyRound 2 entry_price = p)

/-! ### Buy-order fill accounting (check_fills lines 272-290 and
audit_cancelled_orders lines 942-966)

Both call sites use the same delta logic on one tracked buy order: read the
size_matched reported by the exchange, take the delta against processed_size,
and when the delta exceeds the float tolerance pass round(delta, 6) to
_process_buy_fill and advance processed_size to the reported value. A fold
over the sequence of successful status reads models any interleaving of the
two call sites on one order. -/

/-- Float tolerance used at lines 279 and 951. -/
def buyFillTol : ℚ := 1/1000000

/-- One successful status read of a buy order: from the current
processed_size and the reported size_matched, produce the new processed_size
and the delta passed to _process_buy_fill, if any. -/
def processBuyRead (processed : ℚ) (size_matched : ℚ) : ℚ × Option ℚ :=
  if 0 < size_matched then
    if buyFillTol < size_matched - processed then
      (size_matched, some (pyRound 6 (size_matched - processed)))
    else (processed, none)
  else (processed, none)

/-- Fold of processBuyRead over a sequence of reads: final processed_size and
the list of deltas passed to _process_buy_fill. -/
def processBuyReads (processed : ℚ) : List ℚ → ℚ × List ℚ
  | [] => (processed, [])
  | m :: rest =>
    let s := processBuyRead processed m
    let r := processBuyReads s.1 rest
    (r.1, s.2.toList ++ r.2)

/-- Trace of processed_size values along a read sequence, starting value
included. -/
def buyTrace (processed : ℚ) : List ℚ → List ℚ
  | [] => [processed]
  | m :: rest => processed :: buyTrace (processBuyRead processed m).1 rest

/-! ### Partial-fill accumulator and sell emission
(StrategyEngine._process_buy_fill, lines 758-911) -/

/-- One accumulator entry, keyed in the engine by
(slug, side, token_id, exit_price) (line 806). -/
structure AccEntry where
  size : ℚ
  total_entry_value : ℚ
deriving DecidableEq, Repr

/-- A sell lot the engine submits: placed directly, or enqueued as a pending
sell with the same price, size and entry when placement fails
(lines 877-911). -/
structure SellLot where
  price : ℚ
  size : ℚ
  entry_price : ℚ
deriving DecidableEq, Repr

/-- Outcome of the balance reconciliation at lines 829-841: either the
computed available balance (token balance minus shares locked in open sells),
or an exception, in which case the engine falls back to the accumulator size
(lines 868-870). -/
inductive BalanceCheck
  | ok (available : ℚ)
  | failed
deriving DecidableEq, Repr

/-- Result of _process_buy_fill on one accumulator entry. -/
structure BuyFillRes where
  acc : AccEntry
  emitted : Option SellLot
deriving DecidableEq, Repr

/-- StrategyEngine._process_buy_fill (lines 758-911), restricted to the
accumulator entry for the key of this order. The delta fill_amount is added
to the entry (lines 811-813); when the entry reaches MIN_SHARES (line 821)
the engine reconciles against the available balance: an available balance of
zero or less leaves the entry intact and emits nothing (lines 844-851), a
positive available balance below the accumulated size shrinks the lot
(line 854) and drops it as dust if the shrunken lot is below MIN_SHARES
(lines 861-866), and otherwise the entry is reset and a lot at the exit
price with the share-weighted average entry is submitted (lines 873-911). -/
def processBuyFill (entry_price : ℚ) (acc0 : AccEntry) (delta : ℚ)
    (bal : BalanceCheck) : BuyFillRes :=
  let exit_price := getExitPrice entry_price
  let acc : AccEntry := ⟨acc0.size + delta, acc0.total_entry_value + delta * entry_price⟩
  if MIN_SHARES ≤ acc.size then
    let avg_entry := acc.total_entry_value / acc.size
    match bal with
    | .ok available =>
      if available < acc.size ∧ available ≤ 0 then ⟨acc, none⟩
      else
        let sell_size := if available < acc.size then available else acc.size
        if sell_size < MIN_SHARES then ⟨⟨0, 0⟩, none⟩
        else ⟨⟨0, 0⟩, some ⟨exit_price, sell_size, avg_entry⟩⟩
    | .failed => ⟨⟨0, 0⟩, some ⟨exit_price, acc.size, avg_entry⟩⟩
  else ⟨acc, none⟩

/-- One buy fill feeding an accumulator key: the entry price of the filled
order, the fill delta, and the balance oracle answer for that tick. -/
structure BuyFillInput where
  entry_price : ℚ
  delta : ℚ
  bal : BalanceCheck
deriving DecidableEq, Repr

/-- Fold of _process_buy_fill over a sequence of fills on one accumulator
key: final accumulator entry and the emitted lots in order. -/
def processBuyFills (acc : AccEntry) : List BuyFillInput → AccEntry × List SellLot
  | [] => (acc, [])
  | f :: rest =>
    let r := processBuyFill f.entry_price acc f.delta f.bal
    let t := processBuyFills r.acc rest
    (t.1, r.emitted.toList ++ t.2)

/-- Modelled from the spec: the lot-size formula the spec states for sell
emission, min_lot = max(MIN_SHARES, ceil(MIN_NOTIONAL / exit_price) × 1.01).
The source computes no such quantity; the definition exists only to compare
the spec formula with the source condition acc.size ≥ MIN_SHARES. -/
def minLotSpec (exit_price : ℚ) : ℚ :=
  max MIN_SHARES ((⌈MIN_NOTIONAL_VALUE_USDC / exit_price⌉ : ℤ) * (101/100))

/-! ### Sell fills, OCO and reload (StrategyEngine._process_sell_fill,
lines 973-1047) -/

/-- An open position (models.Position), restricted to the fields
_process_sell_fill matches on. -/
structure Position where
  side : OrderSide
  entry_price : ℚ
  size : ℚ
deriving DecidableEq, Repr

/-- The sibling-match predicate of the OCO branches (lines 1004-1006 and
1014-1016): truthy entry price within 1e-3 of the filled entry, same side,
not already terminally known. -/
def sibMatch (knownIds : List String) (side : OrderSide) (entry : ℚ)
    (o : TrackedOrder) : Bool :=
  match o.entry_price with
  | none => false
  | some e =>
    if e = 0 then false
    else if |e - entry| < 1/1000 then
      if o.side = side then !(knownIds.contains o.order_id) else false
    else false

/-- Orders of a list that are live OCO siblings of (side, entry). -/
def liveSiblings (orders : List TrackedOrder) (knownIds : List String)
    (side : OrderSide) (entry : ℚ) : List TrackedOrder :=
  orders.filter (sibMatch knownIds side entry)

/-- Removal of the first position matching side and entry within 1e-3
(lines 1022-1027). -/
def removeFirstPos (ps : List Position) (side : OrderSide) (entry : ℚ) :
    List Position :=
  match ps with
  | [] => []
  | p :: rest =>
    if p.side = side ∧ |p.entry_price - entry| < 1/1000 then rest
    else p :: removeFirstPos rest side entry

/-- Result of _process_sell_fill: PnL credited to the Cycle Result, the
cancelled OCO sibling if any (also marked terminally known), the known set
afterwards, the positions afterwards, and the reload buy posted, if any, as
(price, size). -/
structure SellFillRes where
  pnl : ℚ
  cancelled : Option String
  knownAfter : List String
  positionsAfter : List Position
  reload : Option (ℚ × ℚ)
deriving DecidableEq, Repr

/-- StrategyEngine._process_sell_fill (lines 973-1047). The entry price
defaults to 0 when unset (line 982); PnL is (order.price − entry) ×
order.size (line 983); on a protected entry the OCO branch scans the sell
list after a stop-loss fill and the stop-loss list after a take-profit fill,
cancelling the first live sibling and marking it known (lines 998-1020); the
first matching position is removed (lines 1022-1027); and a reload buy at
the entry price for the same size is posted exactly when the event is still
ACCUMULATING and the fill is not a stop-loss (lines 1031-1047). -/
def processSellFill (state : StrategyState) (sells stops : List TrackedOrder)
    (knownIds : List String) (positions : List Position)
    (order : TrackedOrder) (is_stop : Bool) : SellFillRes :=
  let entry := order.entry_price.getD 0
  let pnl := (order.price - entry) * order.size
  let cancelled :=
    if needsStopLoss entry then
      if is_stop then
        (sells.find? (sibMatch knownIds order.side entry)).map (fun o => o.order_id)
      else
        (stops.find? (sibMatch knownIds order.side entry)).map (fun o => o.order_id)
    else none
  let knownAfter :=
    match cancelled with
    | some oid => oid :: knownIds
    | none => knownIds
  let positionsAfter := removeFirstPos positions order.side entry
  let reload :=
    if state = StrategyState.accumulating ∧ is_stop = false then
      some (entry, order.size)
    else none
  ⟨pnl, cancelled, knownAfter, positionsAfter, reload⟩

/-! ### Sell-order status reads (check_fills, lines 304-338)

A tracked sell that has left the open-order snapshot is queried; a positive
size_matched overwrites order.size with the cumulative matched size
(line 325) and runs _process_sell_fill on it (line 326); the order is marked
terminally known only when fully matched (lines 329-330), else it stays
tracked; a dead status with zero fills marks it known (lines 335-338). -/

/-- One successful status read of a sell order. -/
structure SellRead where
  size_matched : ℚ
  original_size : ℚ
  status : String
deriving DecidableEq, Repr

/-- Terminal statuses recognised for 0-fill sells (line 335). -/
def deadStatuses : List String :=
  ["CANCELED", "CANCELLED", "INVALID", "EXPIRED", "REJECTED"]

/-- Tracking state of one sell order across status reads: the mutable
tracked order, the total PnL credited to the Cycle Result, and whether the
order is terminally known. -/
structure SellTrack where
  order : TrackedOrder
  credited : ℚ
  known : Bool
deriving DecidableEq, Repr

/-- One iteration of the sell loop of check_fills for one order
(lines 305-338), given the engine context passed to _process_sell_fill. -/
def sellReadStep (state : StrategyState) (sells stops : List TrackedOrder)
    (knownIds : List String) (positions : List Position)
    (t : SellTrack) (r : SellRead) : SellTrack :=
  if t.known then t
  else if 0 < r.size_matched then
    let o := { t.order with size := r.size_matched }
    let res := processSellFill state sells stops knownIds positions o false
    { order := o
      credited := t.credited + res.pnl
      known := if r.original_size ≤ r.size_matched ∨ r.status = "MATCHED" then true else false }
  else if deadStatuses.contains r.status then
    { t with known := true }
  else t

/-- Fold of sellReadStep over a sequence of status reads of one sell
order. -/
def sellReads (state : StrategyState) (sells stops : List TrackedOrder)
    (knownIds : List String) (positions : List Position)
    (t : SellTrack) (rs : List SellRead) : SellTrack :=
  rs.foldl (sellReadStep state sells stops knownIds positions) t

/-! ### The pending-sell retry queue (StrategyEngine.process_pending_sells,
lines 418-570) -/

/-- A queued pending sell (line 50). -/
structure PendingSell where
  token_id : String
  side : OrderSide
  exit_price : ℚ
  size : ℚ
  slug : String
  entry_price : ℚ
  attempts : ℕ
deriving DecidableEq, Repr

/-- What becomes of one pending entry this cycle. -/
inductive PendingDisp
  | placed
  | dropped
  | requeued (size : ℚ) (attempts : ℕ)
deriving DecidableEq, Repr

/-- Oracle answers consumed while processing one pending entry: whether the
placement succeeds, whether the balance re-check raises, the token balance,
the shares locked in open sells, and whether a matching open sell already
exists. -/
structure RetryEnv where
  place_succeeds : Bool
  balance_throws : Bool
  actual_balance : ℚ
  locked_in_sells : ℚ
  existing_sell : Bool
deriving DecidableEq, Repr

/-- Processing of one entry of the pending-sell queue
(process_pending_sells, lines 430-568). Returns the disposition of the entry
and whether any Notifier message was sent for it. Entries below MIN_SHARES
are dropped with only an error log (lines 432-438). On placement success the
sell is recorded and the notifier reports it (lines 449-469). On failure the
balance is reconciled: a non-positive available balance drops the entry when
a matching sell exists, else requeues it for at most 5 further attempts and
then drops it silently (lines 490-509); a zero token balance with positive
available balance would retry up to 60 attempts and then alert
(lines 511-524); a positive available balance below the requested size
shrinks the entry, dropping it as dust below MIN_SHARES (lines 526-544); an
available balance covering the size requeues up to 10 attempts and then
alerts and drops (lines 546-563); a balance-check exception requeues up to
10 attempts (lines 565-568). -/
def processPendingEntry (p : PendingSell) (env : RetryEnv) : PendingDisp × Bool :=
  if p.size < MIN_SHARES then (.dropped, false)
  else if env.place_succeeds then (.placed, true)
  else
    let attempts := p.attempts + 1
    if env.balance_throws then
      if attempts ≤ 10 then (.requeued p.size attempts, false) else (.dropped, false)
    else
      let available := env.actual_balance - env.locked_in_sells
      if available ≤ 0 then
        if env.existing_sell then (.dropped, false)
        else if attempts ≤ 5 then (.requeued p.size attempts, false)
        else (.dropped, false)
      else if env.actual_balance = 0 then
        if attempts ≤ 60 then (.requeued p.size attempts, false)
        else (.dropped, true)
      else if available < p.size then
        if available < MIN_SHARES then (.dropped, false)
        else (.requeued available 0, false)
      else
        if attempts ≤ 10 then (.requeued p.size attempts, false)
        else (.dropped, true)

/-! ### Client-side stop-loss monitor (StrategyEngine._check_stop_loss,
lines 572-661) -/

/-- Outcome of the attempt to cancel the take-profit (lines 614-633): the
cancellation succeeds; it raises but the follow-up status query shows the
order already terminal (not found, cancelled or matched); or it raises and
the order is still active or unverifiable, deferring to the next tick. -/
inductive CancelOutcome
  | ok
  | failedButTerminal
  | failedActive
deriving DecidableEq, Repr

/-- Result of the stop-loss check on one tracked sell: whether the order was
marked terminally known, and the market-dump sell posted, if any, as
(price, size). -/
structure StopLossRes where
  marked_known : Bool
  dump : Option (ℚ × ℚ)
deriving DecidableEq, Repr

/-- StrategyEngine._check_stop_loss for one tracked sell (lines 585-661):
skip orders already known or no longer open, entries without stop-loss
protection, missing bids and bids below the 0.10 spam floor; at a bid at or
below STOP_LOSS_PRICE cancel the take-profit (accepting a failed
cancellation whose status query shows the order terminal), mark it known and
post a sell at 0.01 for the full tracked size. -/
def checkStopLossOrder (order : TrackedOrder) (bid : Option ℚ)
    (inKnown inOpen : Bool) (cancel : CancelOutcome) : StopLossRes :=
  if inKnown then ⟨false, none⟩
  else if !inOpen then ⟨false, none⟩
  else if !needsStopLoss (order.entry_price.getD 0) then ⟨false, none⟩
  else
    match bid with
    | none => ⟨false, none⟩
    | some b =>
      if b < 1/10 then ⟨false, none⟩
      else if b ≤ STOP_LOSS_PRICE then
        if cancel = CancelOutcome.ok ∨ cancel = CancelOutcome.failedButTerminal then
          ⟨true, some (1/100, order.size)⟩
        else ⟨false, none⟩
      else ⟨false, none⟩

/-! ### The stop-loss order book across engine operations

The engine keeps a per-event list _stop_loss_orders (line 44). It is written
in exactly one place, initialize_event line 113, which sets the entry for the
new slug to the empty list; _process_sell_fill line 1013, check_completion
lines 1197-1201 and get_pending_count line 1228 only read it, and the
market-dump order placed by _check_stop_loss (lines 642-649) is not appended
to it or to any other tracked list. The book is modelled as an association
list and every public engine operation as its effect on the book. -/

/-- The per-event stop-loss order lists, as an association list keyed by
event slug. -/
abbrev StopLossBook : Type := List (String × List TrackedOrder)

/-- Python dict assignment book[slug] = l. -/
def bookSet (book : StopLossBook) (slug : String) (l : List TrackedOrder) :
    StopLossBook :=
  (slug, l) :: List.filter (fun p => !(p.1 == slug)) book

/-- Python dict read book.get(slug, []). -/
def bookGet (book : StopLossBook) (slug : String) : List TrackedOrder :=
  match List.find? (fun p => p.1 == slug) book with
  | some p => p.2
  | none => []

/-- The public operations of the strategy engine, as driven by main.py.
setupEvent models initialize_event with its guards (already-initialized slug,
non-PRE_MARKET phase); the remaining operations cover check_fills (which
runs _process_buy_fill, _process_sell_fill and _check_stop_loss),
process_pending_sells, transition_to_live (which runs the audit and the
accumulator flush) and check_completion. -/
inductive EngineOp
  | setupEvent (slug : String) (fresh premarket : Bool)
  | checkFills
  | processPendingSells
  | transitionToLive
  | checkCompletion
deriving DecidableEq, Repr

/-- Effect of one engine operation on the stop-loss book: initialize_event
writes the empty list for a fresh PRE_MARKET slug (line 113); no other
operation writes the book. -/
def opBook (book : StopLossBook) : EngineOp → StopLossBook
  | .setupEvent slug fresh premarket =>
    if fresh && premarket then bookSet book slug [] else book
  | .checkFills => book
  | .processPendingSells => book
  | .transitionToLive => book
  | .checkCompletion => book

/-- The stop-loss book reached from engine start (line 44: empty dict) by a
sequence of operations. -/
def runBook (ops : List EngineOp) : StopLossBook := ops.foldl opBook []

/-- The open-stop-loss condition of check_completion (lines 1197-1201). -/
def hasPendingStops (book : StopLossBook) (slug : String)
    (openIds knownIds : List String) : Bool :=
  (bookGet book slug).any
    (fun o => !(knownIds.contains o.order_id) && openIds.contains o.order_id)

/-! ### Concrete fixtures used in evaluations -/

/-- Fixture: a live take-profit sell at 0.49 for a protected 0.48 entry of 30
shares (the scenario of spec section S5). -/
def tpA : TrackedOrder :=
  ⟨"a", "tok", OrderSide.yes, OrderType.sell, 49/100, 30, "ev", some (48/100), 0⟩

/-- Fixture: a second live take-profit sell for the same protected entry. -/
def tpB : TrackedOrder :=
  ⟨"b", "tok", OrderSide.yes, OrderType.sell, 49/100, 30, "ev", some (48/100), 0⟩

/-- Fixture: a filled market-dump sell at 0.01 for the same protected
entry. -/
def slC : TrackedOrder :=
  ⟨"c", "tok", OrderSide.yes, OrderType.sell, 1/100, 30, "ev", some (48/100), 0⟩

/-- Fixture: a tracked take-profit sell at 0.47 for an unprotected 0.44 entry
of 30 shares. -/
def sellS1 : TrackedOrder :=
  ⟨"s1", "tok", OrderSide.yes, OrderType.sell, 47/100, 30, "ev", some (44/100), 0⟩


/-! ## Helper lemmas and claim theorems -/

theorem roundHalfEven_intCast (k : ℤ) : roundHalfEven (k : ℚ) = k := by
  simp [roundHalfEven, Int.floor_intCast]

theorem pyRound_fixed (d : ℕ) (q : ℚ) (k : ℤ) (h : q * 10 ^ d = (k : ℚ)) :
    pyRound d q = q := by
  have h0 : ((10 : ℚ) ^ d) ≠ 0 := by positivity
  rw [pyRound, h, roundHalfEven_intCast, ← h]
  exact mul_div_cancel_right₀ q h0

theorem getExitPrice_forty : getExitPrice (40/100) = 49/100 := by
  have hl : lookupExit (40/100 : ℚ) EXIT_PRICES = none := by
    rw [EXIT_PRICES]
    simp only [lookupExit]
    norm_num
  unfold getExitPrice
  rw [pyRound_fixed 2 ((40:ℚ)/100) 40 (by norm_num), hl]

theorem getExitPrice_fortyeight : getExitPrice (48/100) = 49/100 := by
  have hl : lookupExit (48/100 : ℚ) EXIT_PRICES = some (49/100) := by
    rw [EXIT_PRICES]
    simp only [lookupExit]
    norm_num
  unfold getExitPrice
  rw [pyRound_fixed 2 ((48:ℚ)/100) 48 (by norm_num), hl]

theorem needsStopLoss_fortyeight : needsStopLoss (48/100) = true := by
  rw [needsStopLoss, STOP_LOSS_ENTRIES]
  simp only [List.any_cons, List.any_nil, Bool.or_false, decide_eq_true_eq]
  exact pyRound_fixed 2 _ 48 (by norm_num)

theorem needsStopLoss_fortyfour : needsStopLoss (44/100) = false := by
  rw [needsStopLoss, STOP_LOSS_ENTRIES]
  simp only [List.any_cons, List.any_nil, Bool.or_false, decide_eq_false_iff_not]
  rw [pyRound_fixed 2 ((44:ℚ)/100) 44 (by norm_num)]
  norm_num

theorem lookupExit_some_ge (b : ℚ) :
    ∀ (l : List (ℚ × ℚ)) (k v : ℚ), (∀ p ∈ l, b ≤ p.2) →
      lookupExit k l = some v → b ≤ v
  | [] => by
    intro k v h hv
    simp [lookupExit] at hv
  | (a1, a2) :: rest => by
    intro k v h hv
    rw [lookupExit] at hv
    by_cases hk : k = a1
    · rw [if_pos hk] at hv
      cases hv
      exact h (a1, a2) (by simp)
    · rw [if_neg hk] at hv
      exact lookupExit_some_ge b rest k v (fun p hp => h p (List.mem_cons_of_mem _ hp)) hv

theorem exitPrices_ge : ∀ p ∈ EXIT_PRICES, 45/100 ≤ p.2 := by
  intro p hp
  rw [EXIT_PRICES] at hp
  simp only [List.mem_cons, List.not_mem_nil, or_false] at hp
  rcases hp with rfl | rfl | rfl | rfl | rfl | rfl | rfl | rfl | rfl | rfl | rfl <;> norm_num

theorem getExitPrice_ge (q : ℚ) : 45/100 ≤ getExitPrice q := by
  unfold getExitPrice
  cases h : lookupExit (pyRound 2 q) EXIT_PRICES with
  | none => norm_num
  | some v => exact lookupExit_some_ge (45/100) EXIT_PRICES _ v exitPrices_ge h

theorem find?_eq_head?_filter {α : Type} (p : α → Bool) :
    ∀ l : List α, l.find? p = (l.filter p).head?
  | [] => rfl
  | a :: t => by
    cases h : p a with
    | true => rw [List.find?_cons_of_pos _ h, List.filter_cons_of_pos h]; rfl
    | false =>
      have h2 : ¬ p a = true := by simp [h]
      rw [List.find?_cons_of_neg _ h2, List.filter_cons_of_neg h2,
        find?_eq_head?_filter p t]

/-- C5: _process_sell_fill posts exactly one reload BUY at the original entry
price for the same size if and only if the event state is ACCUMULATING and
the fill is a take-profit (is_stop false); in EXITING or COMPLETED, and for
every stop-loss fill, no reload is posted (lines 1031-1047). -/
theorem c5_reload_rule (state : StrategyState) (sells stops : List TrackedOrder)
    (knownIds : List String) (positions : List Position)
    (order : TrackedOrder) (is_stop : Bool) :
    ((processSellFill state sells stops knownIds positions order is_stop).reload ≠ none
      ↔ state = StrategyState.accumulating ∧ is_stop = false)
    ∧ (processSellFill state sells stops knownIds positions order is_stop).reload
      = (if state = StrategyState.accumulating ∧ is_stop = false
         then some (order.entry_price.getD 0, order.size) else none) := by
  constructor
  · by_cases h : state = StrategyState.accumulating ∧ is_stop = false
    · simp only [processSellFill, if_pos h]
      simp [h]
    · simp only [processSellFill, if_neg h]
      simp [h]
  · rfl

/-- C7 counterexample: a pending sell of 2.0 shares at exit 0.40 has notional
0.80 below MIN_NOTIONAL, and process_pending_sells removes it permanently,
but no Notifier message is sent for it (the second component of the result
is false), refuting the claim that the operator is notified through the
Notifier (lines 430-438 log an error and continue). -/
theorem c7_counterexample :
    (2 : ℚ) * (40/100) < MIN_NOTIONAL_VALUE_USDC
    ∧ processPendingEntry ⟨"tok", OrderSide.yes, 40/100, 2, "ev", 40/100, 0⟩
        ⟨true, false, 100, 0, false⟩ = (PendingDisp.dropped, false) := by
  constructor
  · norm_num [MIN_NOTIONAL_VALUE_USDC]
  · unfold processPendingEntry
    rw [if_pos (by norm_num [MIN_SHARES] : ((⟨"tok", OrderSide.yes, 40/100, 2, "ev", 40/100, 0⟩ : PendingSell)).size < MIN_SHARES)]

/-- C7 amended: every queued pending sell whose size is below MIN_SHARES (6
shares — the test is share count, not notional value) is removed permanently
as dust with only an error log; no Notifier message is sent for it. -/
theorem c7_amended (p : PendingSell) (env : RetryEnv) (h : p.size < MIN_SHARES) :
    processPendingEntry p env = (PendingDisp.dropped, false) := by
  unfold processPendingEntry
  rw [if_pos h]

/-- C7 witness: the amended claim at a concrete dust entry of 2.0 shares. -/
theorem c7_witness :
    ((⟨"tok", OrderSide.yes, 40/100, 2, "ev", 40/100, 3⟩ : PendingSell)).size < MIN_SHARES
    ∧ processPendingEntry ⟨"tok", OrderSide.yes, 40/100, 2, "ev", 40/100, 3⟩
        ⟨false, false, 5, 0, false⟩ = (PendingDisp.dropped, false) := by
  refine ⟨by norm_num [MIN_SHARES], ?_⟩
  exact c7_amended _ _ (by norm_num [MIN_SHARES])

/-- C8: evaluation at the failing input. A pending sell of 6 shares whose
placement fails with token balance 0 and no locked sells takes the
available-non-positive branch of process_pending_sells (lines 490-509), not
the settlement branch: it is requeued only while the incremented attempt
count stays at or below 5, and on the 6th failed attempt it is dropped with
no operator alert. The balance-equals-zero settlement branch with its
60-attempt cap and alert (lines 511-524) is unreachable, because a zero
balance forces available = 0 − locked ≤ 0. -/
theorem c8_settlement_retry_cap :
    processPendingEntry ⟨"tok", OrderSide.yes, 48/100, 6, "ev", 47/100, 4⟩
        ⟨false, false, 0, 0, false⟩ = (PendingDisp.requeued 6 5, false)
    ∧ processPendingEntry ⟨"tok", OrderSide.yes, 48/100, 6, "ev", 47/100, 5⟩
        ⟨false, false, 0, 0, false⟩ = (PendingDisp.dropped, false) := by
  constructor <;> norm_num [processPendingEntry, MIN_SHARES]

/-- C9: for a non-terminal, still-open tracked sell on a protected entry,
when the refreshed best bid is present, at least the 0.10 spam floor and at
most STOP_LOSS_PRICE, and the take-profit cancellation succeeds or the order
is verified terminal, _check_stop_loss marks the order known and posts a
SELL at 0.01 for the full tracked size; a missing bid or a bid below 0.10
never triggers; and a stop-loss fill never produces a reload
(lines 585-661, 1031-1047). -/
theorem c9_stop_loss_dump (order : TrackedOrder) (b : ℚ) (cancel : CancelOutcome)
    (hsl : needsStopLoss (order.entry_price.getD 0) = true)
    (hb1 : 1/10 ≤ b) (hb2 : b ≤ STOP_LOSS_PRICE)
    (hc : cancel = CancelOutcome.ok ∨ cancel = CancelOutcome.failedButTerminal) :
    checkStopLossOrder order (some b) false true cancel
      = ⟨true, some (1/100, order.size)⟩
    ∧ (∀ c2, checkStopLossOrder order none false true c2 = ⟨false, none⟩)
    ∧ (∀ b2 c2, b2 < 1/10 →
        checkStopLossOrder order (some b2) false true c2 = ⟨false, none⟩)
    ∧ (∀ st sells stops kn pos o,
        (processSellFill st sells stops kn pos o true).reload = none) := by
  have hb1n : ¬ b < 1/10 := not_lt.mpr hb1
  refine ⟨?_, ?_, ?_, ?_⟩
  · simp [checkStopLossOrder, hsl, hb1n, hb2, hc]
    rwa [one_div] at hb1
  · intro c2
    simp [checkStopLossOrder, hsl]
  · intro b2 c2 hb
    have hb2n : b2 < 10⁻¹ := by rwa [one_div] at hb
    simp [checkStopLossOrder, hsl, hb2n]
  · intro st sells2 stops2 kn pos o
    simp [processSellFill]

/-- C9 witness: the spec S5 scenario — a 0.48-entry sell of 30 shares with
the bid refreshed to 0.17 triggers the stop-loss and posts a market SELL at
0.01 for 30 shares. -/
theorem c9_witness :
    needsStopLoss (tpA.entry_price.getD 0) = true
    ∧ (1:ℚ)/10 ≤ 17/100
    ∧ (17:ℚ)/100 ≤ STOP_LOSS_PRICE
    ∧ checkStopLossOrder tpA (some (17/100)) false true CancelOutcome.ok
        = ⟨true, some (1/100, tpA.size)⟩ := by
  have h1 : needsStopLoss (tpA.entry_price.getD 0) = true := by
    have e1 : tpA.entry_price = some (48/100) := rfl
    rw [e1, Option.getD_some]
    exact needsStopLoss_fortyeight
  refine ⟨h1, by norm_num, by norm_num [STOP_LOSS_PRICE], ?_⟩
  exact (c9_stop_loss_dump tpA (17/100) CancelOutcome.ok h1 (by norm_num)
    (by norm_num [STOP_LOSS_PRICE]) (Or.inl rfl)).1

theorem opBook_empty (book : StopLossBook)
    (h : ∀ p ∈ book, p.2 = ([] : List TrackedOrder)) (op : EngineOp) :
    ∀ p ∈ opBook book op, p.2 = [] := by
  cases op with
  | setupEvent slug fresh premarket =>
    intro p hp
    simp only [opBook] at hp
    by_cases hf : (fresh && premarket) = true
    · rw [if_pos hf] at hp
      rcases List.mem_cons.mp hp with rfl | hp2
      · rfl
      · exact h p (List.mem_filter.mp hp2).1
    · rw [if_neg hf] at hp
      exact h p hp
  | checkFills => exact h
  | processPendingSells => exact h
  | transitionToLive => exact h
  | checkCompletion => exact h

theorem runBook_aux :
    ∀ (ops : List EngineOp) (book : StopLossBook),
      (∀ p ∈ book, p.2 = ([] : List TrackedOrder)) →
      ∀ p ∈ ops.foldl opBook book, p.2 = []
  | [], _ => fun h => h
  | op :: rest, book => fun h =>
    runBook_aux rest (opBook book op) (opBook_empty book h op)

theorem bookGet_runBook (ops : List EngineOp) (slug : String) :
    bookGet (runBook ops) slug = [] := by
  have hall : ∀ p ∈ runBook ops, p.2 = ([] : List TrackedOrder) :=
    runBook_aux ops [] (by intro p hp; cases hp)
  unfold bookGet
  cases hf : List.find? (fun p => p.1 == slug) (runBook ops) with
  | none => rfl
  | some pr => exact hall pr (List.mem_of_find?_eq_some hf)

/-- C10: in every reachable engine state the per-event stop-loss order
collection is empty — initialize_event writes the empty list and no
operation ever appends (the market-dump order of _check_stop_loss is not
recorded) — hence the open-stop-losses condition of check_completion is
always false and the OCO branch that scans stop-losses after a take-profit
fill scans an empty list and cancels nothing. -/
theorem c10_stop_loss_book_always_empty (ops : List EngineOp) (slug : String)
    (openIds knownIds : List String) (state : StrategyState)
    (sells : List TrackedOrder) (kn : List String) (positions : List Position)
    (order : TrackedOrder) :
    bookGet (runBook ops) slug = []
    ∧ hasPendingStops (runBook ops) slug openIds knownIds = false
    ∧ (processSellFill state sells (bookGet (runBook ops) slug) kn positions
        order false).cancelled = none := by
  have hb := bookGet_runBook ops slug
  refine ⟨hb, ?_, ?_⟩
  · simp only [hasPendingStops, hb, List.any_nil]
  · rw [hb]
    by_cases h : needsStopLoss (order.entry_price.getD 0) = true
    · simp [processSellFill, h]
    · simp [processSellFill, h]


theorem getExitPrice_twoFifths : getExitPrice (2/5) = 49/100 := by
  have h : ((2:ℚ)/5) = 40/100 := by norm_num
  rw [h]
  exact getExitPrice_forty


/-- C2 counterexample: after a single buy fill of 3.0 shares at 0.40 no sell
is emitted, because the source condition is acc.size ≥ MIN_SHARES = 6
(line 821) and 3.0 < 6; moreover the exit price for a 0.40 entry is the 0.49
default, not 0.47, since 0.40 is absent from EXIT_PRICES. -/
theorem c2_counterexample :
    (processBuyFill (40/100) ⟨0, 0⟩ 3 (BalanceCheck.ok 100)).emitted = none
    ∧ getExitPrice (40/100) = 49/100
    ∧ (3:ℚ) < MIN_SHARES := by
  refine ⟨?_, getExitPrice_forty, by rw [MIN_SHARES]; norm_num⟩
  simp only [processBuyFill]
  split_ifs with h1 h2 h3 <;> first
    | rfl
    | (exfalso; rw [MIN_SHARES] at h1; norm_num at h1)

/-- C2 amended: under a sufficient reconciled balance a sell lot is emitted
from the accumulator iff the accumulated size reaches MIN_SHARES; every
emitted sell satisfies size ≥ MIN_SHARES and size × price ≥ MIN_NOTIONAL;
the spec formula min_lot = max(MIN_SHARES, ceil(MIN_NOTIONAL/exit) × 1.01)
collapses to MIN_SHARES for every exit price the engine uses (≥ 0.45), so
the threshold part of the claim is equivalent to the source condition; and
after a second 3.0-share fill at 0.40 a sell of 6.0 shares at 0.49 with
average entry 0.40 is emitted. -/
theorem c2_amended (e : ℚ) (acc0 : AccEntry) (delta a : ℚ)
    (ha : acc0.size + delta ≤ a) :
    ((processBuyFill e acc0 delta (BalanceCheck.ok a)).emitted ≠ none
      ↔ MIN_SHARES ≤ acc0.size + delta)
    ∧ (∀ e2 acc2 d2 bal2 lot,
        (processBuyFill e2 acc2 d2 bal2).emitted = some lot →
          MIN_SHARES ≤ lot.size ∧ MIN_NOTIONAL_VALUE_USDC ≤ lot.size * lot.price)
    ∧ (∀ q : ℚ, 45/100 ≤ q → minLotSpec q = MIN_SHARES)
    ∧ (processBuyFill (40/100) ⟨3, 6/5⟩ 3 (BalanceCheck.ok 100)).emitted
      = some ⟨49/100, 6, 2/5⟩ := by
  refine ⟨?_, ?_, ?_, ?_⟩
  · by_cases h6 : MIN_SHARES ≤ acc0.size + delta
    · have hna : ¬ (a < acc0.size + delta ∧ a ≤ 0) := by
        intro hcon
        exact absurd ha (not_le.mpr hcon.1)
      have hsz : ¬ a < acc0.size + delta := not_lt.mpr ha
      simp only [processBuyFill, if_pos h6, if_neg hna, if_neg hsz, if_neg (not_lt.mpr h6)]
      simp [h6]
    · simp only [processBuyFill, if_neg h6]
      simp [h6]
  · intro e2 acc2 d2 bal2 lot hl
    have hp := getExitPrice_ge e2
    have key : MIN_SHARES ≤ lot.size ∧ lot.price = getExitPrice e2 := by
      by_cases h6 : MIN_SHARES ≤ acc2.size + d2
      · cases bal2 with
        | failed =>
          simp only [processBuyFill, if_pos h6, Option.some.injEq] at hl
          rw [← hl]
          exact ⟨h6, rfl⟩
        | ok a2 =>
          simp only [processBuyFill, if_pos h6] at hl
          by_cases hc1 : a2 < acc2.size + d2 ∧ a2 ≤ 0
          · rw [if_pos hc1] at hl
            simp at hl
          · rw [if_neg hc1] at hl
            by_cases hc2 : (if a2 < acc2.size + d2 then a2 else acc2.size + d2) < MIN_SHARES
            · rw [if_pos hc2] at hl
              simp at hl
            · rw [if_neg hc2] at hl
              simp only [Option.some.injEq] at hl
              rw [← hl]
              exact ⟨not_lt.mp hc2, rfl⟩
      · simp only [processBuyFill, if_neg h6] at hl
        simp at hl
    refine ⟨key.1, ?_⟩
    have h1 : (6:ℚ) ≤ lot.size := by
      have h0 := key.1
      rw [MIN_SHARES] at h0
      exact h0
    have h2 : (45:ℚ)/100 ≤ lot.price := key.2 ▸ hp
    rw [MIN_NOTIONAL_VALUE_USDC]
    nlinarith
  · intro q hq
    have hq0 : (0:ℚ) < q := by linarith
    have h3 : MIN_NOTIONAL_VALUE_USDC / q ≤ 3 := by
      rw [MIN_NOTIONAL_VALUE_USDC, div_le_iff₀ hq0]
      linarith
    have hceil : ⌈MIN_NOTIONAL_VALUE_USDC / q⌉ ≤ (3 : ℤ) := by
      rw [Int.ceil_le]
      push_cast
      exact h3
    have hcast : ((⌈MIN_NOTIONAL_VALUE_USDC / q⌉ : ℤ) : ℚ) ≤ 3 := by
      exact_mod_cast hceil
    have hmul : ((⌈MIN_NOTIONAL_VALUE_USDC / q⌉ : ℤ) : ℚ) * (101/100) ≤ MIN_SHARES := by
      rw [MIN_SHARES]
      nlinarith
    rw [minLotSpec, max_eq_left hmul]
  · norm_num [processBuyFill, MIN_SHARES, getExitPrice_forty, getExitPrice_twoFifths]

/-- C2 witness: the emission criterion applied to a 6-share fill at 0.48
with ample balance. -/
theorem c2_witness :
    ((⟨0, 0⟩ : AccEntry)).size + 6 ≤ (100:ℚ)
    ∧ ((processBuyFill (48/100) ⟨0, 0⟩ 6 (BalanceCheck.ok 100)).emitted ≠ none
        ↔ MIN_SHARES ≤ ((⟨0, 0⟩ : AccEntry)).size + 6) := by
  have ha : ((⟨0, 0⟩ : AccEntry)).size + 6 ≤ (100:ℚ) := by
    show (0:ℚ) + 6 ≤ 100
    norm_num
  exact ⟨ha, (c2_amended (48/100) ⟨0, 0⟩ 6 100 ha).1⟩


/-- C4 counterexample: one buy fill of 10 shares with reconciled available
balance 3 (positive, below the accumulated size, and too small for a valid
lot) makes _process_buy_fill CLEAR the accumulator as dust and emit nothing
(lines 861-866): emitted shares (0) plus residual (0) differ from the 10
shares filled, and the entry is not left intact as the claim states. -/
theorem c4_counterexample :
    processBuyFill (40/100) ⟨0, 0⟩ 10 (BalanceCheck.ok 3) = ⟨⟨0, 0⟩, none⟩
    ∧ ((0:ℚ) + 0 ≠ 10) := by
  constructor
  · norm_num [processBuyFill, MIN_SHARES, getExitPrice_forty, getExitPrice_twoFifths]
  · norm_num

theorem sumDeltas_nonneg (l : List BuyFillInput) (h : ∀ f ∈ l, 0 ≤ f.delta) :
    0 ≤ (l.map BuyFillInput.delta).sum := by
  apply List.sum_nonneg
  intro x hx
  obtain ⟨f, hf, rfl⟩ := List.mem_map.mp hx
  exact h f hf

theorem processBuyFill_step (e s v d : ℚ) (bal : BalanceCheck)
    (hbal : bal = BalanceCheck.failed
      ∨ ∃ a, bal = BalanceCheck.ok a ∧ s + d ≤ a) :
    (¬ MIN_SHARES ≤ s + d
      ∧ processBuyFill e ⟨s, v⟩ d bal = ⟨⟨s + d, v + d * e⟩, none⟩)
    ∨ (MIN_SHARES ≤ s + d
      ∧ processBuyFill e ⟨s, v⟩ d bal
        = ⟨⟨0, 0⟩, some ⟨getExitPrice e, s + d, (v + d * e) / (s + d)⟩⟩) := by
  by_cases h6 : MIN_SHARES ≤ s + d
  · right
    refine ⟨h6, ?_⟩
    rcases hbal with rfl | ⟨a, rfl, haa⟩
    · simp only [processBuyFill, if_pos h6]
    · have hlt : ¬ a < s + d := not_lt.mpr haa
      have hc1 : ¬ (a < s + d ∧ a ≤ 0) := fun hc => hlt hc.1
      simp only [processBuyFill]
      rw [if_pos h6, if_neg hc1, if_neg hlt, if_neg (not_lt.mpr h6)]
  · left
    refine ⟨h6, ?_⟩
    simp only [processBuyFill]
    rw [if_neg h6]

theorem processBuyFills_conserve :
    ∀ (fills : List BuyFillInput) (s v B : ℚ),
      0 ≤ s →
      (∀ f ∈ fills, 0 ≤ f.delta) →
      s + (fills.map BuyFillInput.delta).sum ≤ B →
      (∀ f ∈ fills, f.bal = BalanceCheck.failed
        ∨ ∃ a, f.bal = BalanceCheck.ok a ∧ B ≤ a) →
      (((processBuyFills ⟨s, v⟩ fills).2.map SellLot.size).sum
          + (processBuyFills ⟨s, v⟩ fills).1.size
        = s + (fills.map BuyFillInput.delta).sum)
      ∧ (((processBuyFills ⟨s, v⟩ fills).2.map (fun l => l.size * l.entry_price)).sum
          + (processBuyFills ⟨s, v⟩ fills).1.total_entry_value
        = v + (fills.map (fun f => f.delta * f.entry_price)).sum) := by
  intro fills
  induction fills with
  | nil =>
    intro s v B _ _ _ _
    simp [processBuyFills]
  | cons f rest ih =>
    intro s v B hacc hd hBsum hbal
    have hdf : 0 ≤ f.delta := hd f (List.mem_cons_self f rest)
    have hdrest : ∀ g ∈ rest, 0 ≤ g.delta :=
      fun g hg => hd g (List.mem_cons_of_mem f hg)
    have hrest_nonneg : 0 ≤ (rest.map BuyFillInput.delta).sum :=
      sumDeltas_nonneg rest hdrest
    have hbalrest : ∀ g ∈ rest, g.bal = BalanceCheck.failed
        ∨ ∃ a, g.bal = BalanceCheck.ok a ∧ B ≤ a :=
      fun g hg => hbal g (List.mem_cons_of_mem f hg)
    have hsum_cons : ((f :: rest).map BuyFillInput.delta).sum
        = f.delta + (rest.map BuyFillInput.delta).sum := by simp
    have hvals_cons : ((f :: rest).map (fun g => g.delta * g.entry_price)).sum
        = f.delta * f.entry_price
          + (rest.map (fun g => g.delta * g.entry_price)).sum := by simp
    have hle : s + f.delta ≤ B := by
      rw [hsum_cons] at hBsum
      linarith
    have hstep := processBuyFill_step f.entry_price s v f.delta f.bal ?balarg
    case balarg =>
      rcases hbal f (List.mem_cons_self f rest) with hfail | ⟨a, hok, hBa⟩
      · exact Or.inl hfail
      · exact Or.inr ⟨a, hok, le_trans hle hBa⟩
    rcases hstep with ⟨h6, heq⟩ | ⟨h6, heq⟩
    · have hrec := ih (s + f.delta) (v + f.delta * f.entry_price) B
        (by linarith) hdrest
        (by
          rw [hsum_cons] at hBsum
          linarith)
        hbalrest
      simp only [processBuyFills, heq, Option.toList_none, List.nil_append,
        hsum_cons, hvals_cons]
      exact ⟨by linarith [hrec.1], by linarith [hrec.2]⟩
    · have hpos : (0:ℚ) < s + f.delta := by
        have h60 : (0:ℚ) < MIN_SHARES := by rw [MIN_SHARES]; norm_num
        linarith
      have hlot : (s + f.delta)
          * ((v + f.delta * f.entry_price) / (s + f.delta))
          = v + f.delta * f.entry_price :=
        mul_div_cancel₀ _ (ne_of_gt hpos)
      have hrec := ih 0 0 B (le_refl 0) hdrest
        (by
          rw [hsum_cons] at hBsum
          linarith)
        hbalrest
      simp only [processBuyFills, heq, Option.toList_some, List.singleton_append,
        List.map_cons, List.sum_cons, hsum_cons, hvals_cons]
      exact ⟨by linarith [hrec.1], by linarith [hrec.2, hlot]⟩

/-- C4 amended: over any fill sequence on one accumulator key in which every
balance check either raises or reports available at least the total
accumulated size, the shares in emitted lots plus the residual accumulator
size equal the total shares filled, and the emitted value (size ×
entry_price per lot, making each entry_price the share-weighted mean of its
fills) plus the residual value equals the total fill value; when available
≤ 0 the entry is left intact with nothing emitted; but when 0 < available <
MIN_SHARES the entry is cleared as dust with nothing emitted. -/
theorem c4_amended (s0 v0 : ℚ) (fills : List BuyFillInput)
    (hacc : 0 ≤ s0)
    (hd : ∀ f ∈ fills, 0 ≤ f.delta)
    (hbal : ∀ f ∈ fills, f.bal = BalanceCheck.failed
      ∨ ∃ a, f.bal = BalanceCheck.ok a
          ∧ s0 + (fills.map BuyFillInput.delta).sum ≤ a) :
    (((processBuyFills ⟨s0, v0⟩ fills).2.map SellLot.size).sum
        + (processBuyFills ⟨s0, v0⟩ fills).1.size
      = s0 + (fills.map BuyFillInput.delta).sum)
    ∧ (((processBuyFills ⟨s0, v0⟩ fills).2.map (fun l => l.size * l.entry_price)).sum
        + (processBuyFills ⟨s0, v0⟩ fills).1.total_entry_value
      = v0 + (fills.map (fun f => f.delta * f.entry_price)).sum)
    ∧ (∀ e s v d a, MIN_SHARES ≤ s + d → a ≤ 0 →
        processBuyFill e ⟨s, v⟩ d (BalanceCheck.ok a)
          = ⟨⟨s + d, v + d * e⟩, none⟩)
    ∧ (∀ e s v d a, MIN_SHARES ≤ s + d → 0 < a → a < MIN_SHARES →
        processBuyFill e ⟨s, v⟩ d (BalanceCheck.ok a) = ⟨⟨0, 0⟩, none⟩) := by
  have hc := processBuyFills_conserve fills s0 v0
    (s0 + (fills.map BuyFillInput.delta).sum) hacc hd le_rfl hbal
  refine ⟨hc.1, hc.2, ?_, ?_⟩
  · intro e s v d a h6 ha0
    have h60 : (0:ℚ) < MIN_SHARES := by rw [MIN_SHARES]; norm_num
    have hc1 : a < s + d ∧ a ≤ 0 := ⟨by linarith, ha0⟩
    simp only [processBuyFill]
    rw [if_pos h6, if_pos hc1]
  · intro e s v d a h6 ha0 haM
    have h1 : a < s + d := lt_of_lt_of_le haM h6
    have hc1 : ¬ (a < s + d ∧ a ≤ 0) := fun hc => absurd hc.2 (not_le.mpr ha0)
    simp only [processBuyFill]
    rw [if_pos h6, if_neg hc1, if_pos h1, if_pos haM]

/-- C4 witness: conservation at a single 6-share fill at 0.48 with balance
100. -/
theorem c4_witness :
    (0:ℚ) ≤ 0
    ∧ (((processBuyFills ⟨0, 0⟩ [⟨48/100, 6, BalanceCheck.ok 100⟩]).2.map
          SellLot.size).sum
        + (processBuyFills ⟨0, 0⟩ [⟨48/100, 6, BalanceCheck.ok 100⟩]).1.size
      = 0 + (([⟨48/100, 6, BalanceCheck.ok 100⟩] : List BuyFillInput).map
          BuyFillInput.delta).sum) := by
  refine ⟨le_refl 0, ?_⟩
  refine (c4_amended 0 0 [⟨48/100, 6, BalanceCheck.ok 100⟩] (le_refl 0) ?_ ?_).1
  · intro f hf
    rcases List.mem_singleton.mp hf with rfl
    show (0:ℚ) ≤ 6
    norm_num
  · intro f hf
    rcases List.mem_singleton.mp hf with rfl
    refine Or.inr ⟨100, rfl, ?_⟩
    show (0:ℚ) + ((6:ℚ) + 0) ≤ 100
    norm_num


/-- Extending the known set only removes candidates from the OCO sibling
match. -/
theorem sibMatch_cons (x : String) (kn : List String) (side : OrderSide)
    (entry : ℚ) (o : TrackedOrder) (h : sibMatch (x :: kn) side entry o = true) :
    sibMatch kn side entry o = true ∧ o.order_id ≠ x := by
  unfold sibMatch at *
  cases he : o.entry_price with
  | none =>
    rw [he] at h
    simp at h
  | some e =>
    rw [he] at h
    dsimp only at h ⊢
    by_cases h0 : e = 0
    · rw [if_pos h0] at h
      cases h
    · rw [if_neg h0] at h ⊢
      by_cases habs : |e - entry| < 1/1000
      · rw [if_pos habs] at h ⊢
        by_cases hside : o.side = side
        · rw [if_pos hside] at h ⊢
          simp only [List.contains_cons, Bool.not_eq_true', Bool.or_eq_false_iff,
            beq_eq_false_iff_ne] at h
          refine ⟨?_, h.1⟩
          simp only [Bool.not_eq_true']
          exact h.2
        · rw [if_neg hside] at h
          cases h
      · rw [if_neg habs] at h
        cases h

theorem sibMatch_tpA : sibMatch [] OrderSide.yes (48/100) tpA = true := by
  have he : tpA.entry_price = some (48/100) := rfl
  simp only [sibMatch, he]
  rw [if_neg (by norm_num), if_pos (by rw [sub_self, abs_zero]; norm_num),
    if_pos (show tpA.side = OrderSide.yes from rfl)]
  rfl

theorem sibMatch_tpA_known : sibMatch ["a"] OrderSide.yes (48/100) tpA = false := by
  have he : tpA.entry_price = some (48/100) := rfl
  simp only [sibMatch, he]
  rw [if_neg (by norm_num), if_pos (by rw [sub_self, abs_zero]; norm_num),
    if_pos (show tpA.side = OrderSide.yes from rfl)]
  rfl

theorem sibMatch_tpB_known : sibMatch ["a"] OrderSide.yes (48/100) tpB = true := by
  have he : tpB.entry_price = some (48/100) := rfl
  simp only [sibMatch, he]
  rw [if_neg (by norm_num), if_pos (by rw [sub_self, abs_zero]; norm_num),
    if_pos (show tpB.side = OrderSide.yes from rfl)]
  rfl

/-- C6 counterexample: with two live take-profit siblings for the protected
(YES, 0.48) entry, a stop-loss fill cancels only the first match and breaks
(lines 1003-1010), so one sibling remains live, not zero as the claim
states. -/
theorem c6_counterexample :
    (processSellFill StrategyState.exiting [tpA, tpB] [] [] [] slC true).cancelled
      = some "a"
    ∧ liveSiblings [tpA, tpB]
        (processSellFill StrategyState.exiting [tpA, tpB] [] [] [] slC true).knownAfter
        OrderSide.yes (48/100)
      = [tpB]
    ∧ ([tpB] ≠ ([] : List TrackedOrder)) := by
  have eentry : slC.entry_price = some (48/100) := rfl
  have hfind : List.find? (sibMatch [] OrderSide.yes (48/100)) [tpA, tpB]
      = some tpA :=
    List.find?_cons_of_pos _ sibMatch_tpA
  have hside : slC.side = OrderSide.yes := rfl
  have hcan : (processSellFill StrategyState.exiting [tpA, tpB] [] [] [] slC
      true).cancelled = some "a" := by
    simp only [processSellFill, eentry, Option.getD_some,
      needsStopLoss_fortyeight, hside, if_true, hfind]
    rfl
  have hknown : (processSellFill StrategyState.exiting [tpA, tpB] [] [] [] slC
      true).knownAfter = ["a"] := by
    simp only [processSellFill, eentry, Option.getD_some,
      needsStopLoss_fortyeight, hside, if_true, hfind]
    rfl
  refine ⟨hcan, ?_, by simp⟩
  rw [hknown]
  simp [liveSiblings, List.filter_cons, sibMatch_tpA_known, sibMatch_tpB_known]

/-- C6 amended: on a protected entry, a stop-loss fill cancels and marks
terminally known exactly the FIRST live sibling matching side and
entry_price within 1e-3; when at most one matching sibling is live, zero
siblings remain live afterwards. -/
theorem c6_amended (sells stops : List TrackedOrder) (knownIds : List String)
    (positions : List Position) (st : StrategyState) (order : TrackedOrder)
    (hprot : needsStopLoss (order.entry_price.getD 0) = true)
    (hlen : (liveSiblings sells knownIds order.side
        (order.entry_price.getD 0)).length ≤ 1) :
    (processSellFill st sells stops knownIds positions order true).cancelled
      = (liveSiblings sells knownIds order.side
          (order.entry_price.getD 0)).head?.map (fun o => o.order_id)
    ∧ liveSiblings sells
        (processSellFill st sells stops knownIds positions order true).knownAfter
        order.side (order.entry_price.getD 0) = [] := by
  have hfind : sells.find? (sibMatch knownIds order.side (order.entry_price.getD 0))
      = (liveSiblings sells knownIds order.side (order.entry_price.getD 0)).head? :=
    find?_eq_head?_filter _ sells
  have hcan : (processSellFill st sells stops knownIds positions order
      true).cancelled
      = (liveSiblings sells knownIds order.side
          (order.entry_price.getD 0)).head?.map (fun o => o.order_id) := by
    simp only [processSellFill, hprot, if_true, hfind]
  refine ⟨hcan, ?_⟩
  cases hL : liveSiblings sells knownIds order.side (order.entry_price.getD 0) with
  | nil =>
    have hkn : (processSellFill st sells stops knownIds positions order
        true).knownAfter = knownIds := by
      simp only [processSellFill, hprot, if_true, hfind, hL, List.head?_nil]
      rfl
    rw [hkn]
    exact hL
  | cons s rest =>
    have hrest : rest = [] := by
      rw [hL] at hlen
      cases rest with
      | nil => rfl
      | cons a t => simp at hlen
    subst hrest
    have hkn : (processSellFill st sells stops knownIds positions order
        true).knownAfter = s.order_id :: knownIds := by
      simp only [processSellFill, hprot, if_true, hfind, hL, List.head?_cons]
      rfl
    rw [hkn]
    rw [liveSiblings, List.filter_eq_nil_iff]
    intro o ho hmatch
    have h2 := sibMatch_cons s.order_id knownIds order.side
      (order.entry_price.getD 0) o hmatch
    have homem : o ∈ liveSiblings sells knownIds order.side
        (order.entry_price.getD 0) := by
      rw [liveSiblings, List.mem_filter]
      exact ⟨ho, h2.1⟩
    rw [hL, List.mem_singleton] at homem
    exact h2.2 (by rw [homem])

/-- C6 witness: with a single live take-profit sibling, zero siblings remain
after the stop-loss fill is processed. -/
theorem c6_witness :
    needsStopLoss (slC.entry_price.getD 0) = true
    ∧ (liveSiblings [tpA] [] slC.side (slC.entry_price.getD 0)).length ≤ 1
    ∧ liveSiblings [tpA]
        (processSellFill StrategyState.exiting [tpA] [] [] [] slC true).knownAfter
        slC.side (slC.entry_price.getD 0) = [] := by
  have eentry : slC.entry_price = some (48/100) := rfl
  have hside : slC.side = OrderSide.yes := rfl
  have hprot : needsStopLoss (slC.entry_price.getD 0) = true := by
    rw [eentry, Option.getD_some]
    exact needsStopLoss_fortyeight
  have hlive : liveSiblings [tpA] [] slC.side (slC.entry_price.getD 0) = [tpA] := by
    rw [eentry, Option.getD_some, hside]
    simp [liveSiblings, List.filter_cons, sibMatch_tpA]
  have hlen : (liveSiblings [tpA] [] slC.side (slC.entry_price.getD 0)).length ≤ 1 := by
    rw [hlive]
    norm_num
  exact ⟨hprot, hlen,
    (c6_amended [tpA] [] [] [] StrategyState.exiting slC hprot hlen).2⟩


/-- C1: evaluation at the failing input. A tracked sell at 0.47 with entry
0.44 and original size 30 is read twice (size_matched 10 then 30): the code
credits the full cumulative size on each partial read (order.size is
overwritten with size_matched at line 325 and _process_sell_fill charges
(price − entry) × order.size at line 983), totalling 1.20, while the claim
requires (0.47 − 0.44) × 30 = 0.90 — the first 10 shares are credited
twice. -/
theorem c1_partial_sell_double_credit :
    (sellReads StrategyState.exiting [] [] [] [] ⟨sellS1, 0, false⟩
        [⟨10, 30, "LIVE"⟩, ⟨30, 30, "MATCHED"⟩]).credited = 6/5
    ∧ (sellS1.price - sellS1.entry_price.getD 0) * 30 = 9/10
    ∧ ((6:ℚ)/5 ≠ 9/10) := by
  have heS : sellS1.entry_price = some (44/100) := rfl
  have hpS : sellS1.price = 47/100 := rfl
  have hns2 : needsStopLoss ((11:ℚ)/25) = false := by
    have h : ((11:ℚ)/25) = 44/100 := by norm_num
    rw [h]
    exact needsStopLoss_fortyfour
  refine ⟨?_, ?_, by norm_num⟩
  · norm_num [sellReads, List.foldl, sellReadStep, processSellFill, heS, hpS,
      needsStopLoss_fortyfour, hns2, removeFirstPos, deadStatuses]
    rw [if_neg (show ¬ ("LIVE" = "MATCHED") by decide)]
  · rw [hpS, heS, Option.getD_some]
    norm_num


theorem buyFillTol_pos : (0:ℚ) < buyFillTol := by
  rw [buyFillTol]
  norm_num

theorem pyRound_six (k : ℤ) :
    pyRound 6 ((k : ℚ) / 1000000) = (k : ℚ) / 1000000 := by
  refine pyRound_fixed 6 _ k ?_
  rw [show ((10:ℚ) ^ 6) = 1000000 by norm_num]
  exact div_mul_cancel₀ _ (by norm_num)

theorem processBuyRead_ge (p m : ℚ) : p ≤ (processBuyRead p m).1 := by
  unfold processBuyRead
  by_cases hm : 0 < m
  · rw [if_pos hm]
    by_cases hd : buyFillTol < m - p
    · rw [if_pos hd]
      dsimp only
      have ht := buyFillTol_pos
      linarith
    · rw [if_neg hd]
  · rw [if_neg hm]

theorem buyTrace_headq (p : ℚ) (l : List ℚ) : (buyTrace p l).head? = some p := by
  cases l <;> rfl

theorem buyTrace_chain (p : ℚ) (l : List ℚ) :
    List.Chain' (· ≤ ·) (buyTrace p l) := by
  induction l generalizing p with
  | nil => simp [buyTrace]
  | cons m rest ih =>
    rw [buyTrace, List.chain'_cons']
    refine ⟨?_, ih _⟩
    intro y hy
    rw [buyTrace_headq] at hy
    have hy2 : (processBuyRead p m).1 = y := by
      simpa using hy
    rw [← hy2]
    exact processBuyRead_ge p m

theorem processBuyReads_spec :
    ∀ (reads : List ℚ) (p S : ℚ),
      0 ≤ p → p ≤ S → (∃ k : ℤ, p = (k : ℚ) / 1000000) →
      (∀ m ∈ reads, p ≤ m) → (∀ m ∈ reads, m ≤ S) →
      (∀ m ∈ reads, ∃ k : ℤ, m = (k : ℚ) / 1000000) →
      List.Sorted (· ≤ ·) reads →
      p ≤ (processBuyReads p reads).1
      ∧ (processBuyReads p reads).1 ≤ S
      ∧ (processBuyReads p reads).1 ≤ reads.foldl max p
      ∧ reads.foldl max p - buyFillTol ≤ (processBuyReads p reads).1
      ∧ (processBuyReads p reads).2.sum = (processBuyReads p reads).1 - p := by
  intro reads
  induction reads with
  | nil =>
    intro p S hp0 hpS _ _ _ _ _
    simp only [processBuyReads, List.foldl_nil, List.sum_nil]
    have ht := buyFillTol_pos
    refine ⟨le_refl p, hpS, le_refl p, by linarith, by ring⟩
  | cons m rest ih =>
    intro p S hp0 hpS hpmicro hple hbound hmicro hsorted
    have hmem : m ∈ m :: rest := List.mem_cons_self m rest
    have hsc := List.sorted_cons.mp hsorted
    have hplerest : ∀ r ∈ rest, p ≤ r :=
      fun r hr => hple r (List.mem_cons_of_mem m hr)
    have hboundrest : ∀ r ∈ rest, r ≤ S :=
      fun r hr => hbound r (List.mem_cons_of_mem m hr)
    have hmicrorest : ∀ r ∈ rest, ∃ k : ℤ, r = (k : ℚ) / 1000000 :=
      fun r hr => hmicro r (List.mem_cons_of_mem m hr)
    have hpm : p ≤ m := hple m hmem
    have ht := buyFillTol_pos
    by_cases hm : 0 < m
    · by_cases hd : buyFillTol < m - p
      · -- the read is processed: delta m - p is passed on
        have hround : pyRound 6 (m - p) = m - p := by
          obtain ⟨kp, hkp⟩ := hpmicro
          obtain ⟨km, hkm⟩ := hmicro m hmem
          have hmp : m - p = ((km - kp : ℤ) : ℚ) / 1000000 := by
            rw [hkp, hkm]
            push_cast
            ring
          rw [hmp, pyRound_six]
        have hstep : processBuyRead p m = (m, some (m - p)) := by
          unfold processBuyRead
          rw [if_pos hm, if_pos hd, hround]
        have heq1 : processBuyReads p (m :: rest)
            = ((processBuyReads m rest).1, (m - p) :: (processBuyReads m rest).2) := by
          simp only [processBuyReads, hstep, Option.toList_some,
            List.singleton_append]
        have heq2 : (m :: rest).foldl max p = rest.foldl max m := by
          rw [List.foldl_cons, max_eq_right hpm]
        have ihh := ih m S (le_of_lt hm) (hbound m hmem)
          (hmicro m hmem) hsc.1 hboundrest hmicrorest hsc.2
        rw [heq1, heq2]
        dsimp only
        refine ⟨le_trans hpm ihh.1, ihh.2.1, ihh.2.2.1, ihh.2.2.2.1, ?_⟩
        rw [List.sum_cons, ihh.2.2.2.2]
        ring
      · -- skipped: delta at most the tolerance
        have hstep : processBuyRead p m = (p, none) := by
          unfold processBuyRead
          rw [if_pos hm, if_neg hd]
        have heq1 : processBuyReads p (m :: rest) = processBuyReads p rest := by
          simp only [processBuyReads, hstep, Option.toList_none, List.nil_append]
        have ihh := ih p S hp0 hpS hpmicro hplerest hboundrest hmicrorest hsc.2
        have heq2 : (m :: rest).foldl max p = rest.foldl max m := by
          rw [List.foldl_cons, max_eq_right hpm]
        rw [heq1, heq2]
        cases rest with
        | nil =>
          simp only [processBuyReads, List.foldl_nil, List.sum_nil]
          refine ⟨le_refl p, hpS, hpm, by linarith [not_lt.mp hd], by ring⟩
        | cons x rest2 =>
          have hmx : m ≤ x := hsc.1 x (List.mem_cons_self x rest2)
          have hpx : p ≤ x := hplerest x (List.mem_cons_self x rest2)
          have hfold : (x :: rest2).foldl max m = (x :: rest2).foldl max p := by
            rw [List.foldl_cons, List.foldl_cons, max_eq_right hmx,
              max_eq_right hpx]
          rw [hfold]
          exact ihh
    · -- size_matched not positive: nothing happens
      have hm0 : m ≤ 0 := not_lt.mp hm
      have hstep : processBuyRead p m = (p, none) := by
        unfold processBuyRead
        rw [if_neg hm]
      have heq1 : processBuyReads p (m :: rest) = processBuyReads p rest := by
        simp only [processBuyReads, hstep, Option.toList_none, List.nil_append]
      have ihh := ih p S hp0 hpS hpmicro hplerest hboundrest hmicrorest hsc.2
      have heq2 : (m :: rest).foldl max p = rest.foldl max m := by
        rw [List.foldl_cons, max_eq_right hpm]
      rw [heq1, heq2]
      cases rest with
      | nil =>
        simp only [processBuyReads, List.foldl_nil, List.sum_nil]
        refine ⟨le_refl p, hpS, hpm, by linarith, by ring⟩
      | cons x rest2 =>
        have hmx : m ≤ x := hsc.1 x (List.mem_cons_self x rest2)
        have hpx : p ≤ x := hplerest x (List.mem_cons_self x rest2)
        have hfold : (x :: rest2).foldl max m = (x :: rest2).foldl max p := by
          rw [List.foldl_cons, List.foldl_cons, max_eq_right hmx,
            max_eq_right hpx]
        rw [hfold]
        exact ihh

/-- C3: over any sequence of status reads of one tracked buy order with
non-decreasing size_matched bounded by the original size and reported in the
6-decimal fixed point of the exchange, processed_size never decreases, never
exceeds the original size, ends within the 1e-6 float tolerance of the
maximum size_matched observed, and the deltas passed to _process_buy_fill
sum exactly to the final processed_size, so no fill is double-counted. -/
theorem c3_buy_fill_accounting (S : ℚ) (reads : List ℚ)
    (hS : 0 ≤ S)
    (hsorted : List.Sorted (· ≤ ·) reads)
    (hpos : ∀ m ∈ reads, 0 ≤ m)
    (hbound : ∀ m ∈ reads, m ≤ S)
    (hmicro : ∀ m ∈ reads, ∃ k : ℤ, m = (k : ℚ) / 1000000) :
    List.Chain' (· ≤ ·) (buyTrace 0 reads)
    ∧ (processBuyReads 0 reads).1 ≤ S
    ∧ (processBuyReads 0 reads).1 ≤ reads.foldl max 0
    ∧ reads.foldl max 0 - buyFillTol ≤ (processBuyReads 0 reads).1
    ∧ (processBuyReads 0 reads).2.sum = (processBuyReads 0 reads).1 := by
  have h := processBuyReads_spec reads 0 S (le_refl 0) hS ⟨0, by norm_num⟩
    hpos hbound hmicro hsorted
  refine ⟨buyTrace_chain 0 reads, h.2.1, h.2.2.1, h.2.2.2.1, ?_⟩
  have h5 := h.2.2.2.2
  linarith

/-- C3 witness: a 30-share order observed at size_matched 10 and then 30. -/
theorem c3_witness :
    List.Sorted (· ≤ ·) [(10:ℚ), 30]
    ∧ (processBuyReads 0 [(10:ℚ), 30]).1 ≤ 30
    ∧ (processBuyReads 0 [(10:ℚ), 30]).2.sum = (processBuyReads 0 [(10:ℚ), 30]).1 := by
  have hsorted : List.Sorted (· ≤ ·) [(10:ℚ), 30] := by
    norm_num [List.sorted_cons]
  have h := c3_buy_fill_accounting 30 [10, 30] (by norm_num) hsorted
    (by
      intro m hm
      simp only [List.mem_cons, List.not_mem_nil, or_false] at hm
      rcases hm with rfl | rfl <;> norm_num)
    (by
      intro m hm
      simp only [List.mem_cons, List.not_mem_nil, or_false] at hm
      rcases hm with rfl | rfl <;> norm_num)
    (by
      intro m hm
      simp only [List.mem_cons, List.not_mem_nil, or_false] at hm
      rcases hm with rfl | rfl
      · exact ⟨10000000, by norm_num⟩
      · exact ⟨30000000, by norm_num⟩)
  exact ⟨hsorted, h.2.1, h.2.2.2.2⟩

end Produccion
